import Mathlib

/-!
Shallow embedding of the Wordle-clone game logic in `src/main.js`.

The embedded functions mirror the handlers of the source file:
`pressKey`, `deleteKey`, `submitGuess`, `flipTile` (its status branch),
`checkWinLose`, `startInteraction` / `stopInteraction`.  The DOM guess
grid is modelled as a flat list of tiles in document order; the
`data-letter` and `data-state` attributes of a tile become two `Option`
fields.  The keyboard overlay is modelled as the log of
`key.classList.add(...)` calls executed by `flipTile`: `classList.add`
only ever inserts into a set of CSS classes, so the set of classes held
by a key is exactly the set of pairs recorded in the log.
-/

namespace Wordle

/-- Word length, the constant `WORD_LENGTH = 5` of the source. -/
def WORD_LENGTH : Nat := 5

/-- Value of the `data-state` attribute of a tile: `active` while the
letter is being typed, the other three after evaluation by `flipTile`. -/
inductive TState where
  | active
  | correct
  | wrongLocation
  | wrong
deriving DecidableEq, Repr

/-- One tile of the guess grid: `letter` is the `data-letter` attribute,
`state` the `data-state` attribute; `none` models an absent attribute. -/
structure Tile where
  letter : Option Char
  state : Option TState
deriving DecidableEq, Repr

/-- A tile with neither attribute set, as after `deleteKey` or at start. -/
def emptyTile : Tile := ⟨none, none⟩

/-- The `[data-state="active"]` test used by `getActiveTiles`. -/
def isActiveB (t : Tile) : Bool := decide (t.state = some TState.active)

/-- A tile holding an evaluated status (`correct`, `wrong-location` or `wrong`). -/
def isEvalB (t : Tile) : Bool :=
  decide (t.state = some TState.correct ∨ t.state = some TState.wrongLocation ∨
    t.state = some TState.wrong)

/-- The `:not([data-letter])` test used by the empty-tile query selectors. -/
def isEmptyB (t : Tile) : Bool := decide (t.letter = none)

/-- Number of active tiles, `getActiveTiles().length` in the source. -/
def countActive (b : List Tile) : Nat := b.countP isActiveB

/-- Number of tiles carrying an evaluated status. -/
def countEval (b : List Tile) : Nat := b.countP isEvalB

/-- Number of tiles with no `data-letter`, the length of
`guessGrid.querySelectorAll(":not([data-letter])")` in `checkWinLose`. -/
def countEmpty (b : List Tile) : Nat := b.countP isEmptyB

/-- The source's `getActiveTiles()`: active tiles in document order. -/
def activeTiles (b : List Tile) : List Tile := b.filter isActiveB

/-- The guessed word assembled in `submitGuess` by concatenating the
`data-letter` of each active tile. -/
def guessOf (b : List Tile) : List Char := (activeTiles b).filterMap Tile.letter

/-- The first tile without a `data-letter`, the source's
`guessGrid.querySelector(":not([data-letter])")` in `pressKey`. -/
def nextEmptyTile (b : List Tile) : Option Tile := b.find? isEmptyB

/-- Body of `pressKey` after its length guard: fill the first tile that
has no `data-letter` with the lowercased key and mark it active.  When no
empty tile exists the source would dereference `null`; the embedding
leaves the board unchanged in that case and the safety claim shows the
case is unreachable. -/
def pressTiles (c : Char) : List Tile → List Tile
  | [] => []
  | t :: ts =>
    if t.letter = none then ⟨some c.toLower, some TState.active⟩ :: ts
    else t :: pressTiles c ts

/-- The source's `pressKey`: no-op when the active row already holds
`WORD_LENGTH` letters, otherwise fill the next empty tile. -/
def pressKey (c : Char) (b : List Tile) : List Tile :=
  if WORD_LENGTH ≤ countActive b then b else pressTiles c b

/-- The source's `deleteKey`: clear letter and state of the last active
tile in document order; no-op when no tile is active. -/
def deleteTiles : List Tile → List Tile
  | [] => []
  | t :: ts =>
    if ts.any isActiveB then t :: deleteTiles ts
    else if isActiveB t then emptyTile :: ts
    else t :: ts

/-- Status branch of `flipTile` for the tile at index `i` of the active
row holding letter `c`: `correct` when `targetWord[index] === letter`,
else `wrong-location` when `targetWord.includes(letter)`, else `wrong`. -/
def tileStatus (target : List Char) (i : Nat) (c : Char) : TState :=
  if target.get? i = some c then TState.correct
  else if c ∈ target then TState.wrongLocation
  else TState.wrong

/-- Per-position evaluation of a guess, with `i` the index of the first
remaining letter inside the active-tile array of `submitGuess`. -/
def evaluateFrom (target : List Char) : List Char → Nat → List TState
  | [], _ => []
  | c :: cs, i => tileStatus target i c :: evaluateFrom target cs (i + 1)

/-- The pure guess evaluator realised by the `flipTile` callbacks: the
status sequence written into the active row when `guess` is flipped
against `target`. -/
def evaluate (guess target : List Char) : List TState :=
  evaluateFrom target guess 0

/-- Number of positions of `guess` holding letter `c` that `evaluate`
marks `correct` or `wrong-location`. -/
def scoredCount (guess target : List Char) (c : Char) : Nat :=
  ((evaluate guess target).zip guess).countP fun p =>
    decide ((p.1 = TState.correct ∨ p.1 = TState.wrongLocation) ∧ p.2 = c)

/-- Application of the `flipTile` callbacks to the grid: each active tile
receives the status of its letter at its index within the active-tile
array; `i` counts the active tiles already passed.  Letters are kept,
exactly as in the source where only `dataset.state` is written. -/
def flipTiles (target : List Char) : List Tile → Nat → List Tile
  | [], _ => []
  | t :: ts, i =>
    if isActiveB t then
      ⟨t.letter, some (tileStatus target i (t.letter.getD ' '))⟩ ::
        flipTiles target ts (i + 1)
    else t :: flipTiles target ts i

/-- The `key.classList.add(status)` calls issued by the `flipTile`
callbacks, in tile order: one `(letter, status)` pair per active tile. -/
def flipUpdates (target : List Char) : List Tile → Nat → List (Char × TState)
  | [], _ => []
  | t :: ts, i =>
    if isActiveB t then
      (t.letter.getD ' ', tileStatus target i (t.letter.getD ' ')) ::
        flipUpdates target ts (i + 1)
    else flipUpdates target ts i

/-- Game outcome; the source encodes it implicitly through which
`checkWinLose` branch ran and whether interaction was stopped for good. -/
inductive Outcome where
  | inProgress
  | won
  | lost
deriving DecidableEq, Repr

/-- Notification emitted towards the presentation layer by one step:
the alerts and shakes of `submitGuess` and `checkWinLose`. -/
inductive Emit where
  | incompleteGuess
  | invalidWord
  | rowEvaluated
  | won
  | lost
deriving DecidableEq, Repr

/-- Whole game state: the guess grid, the log of keyboard
`classList.add` calls, whether the interaction listeners are attached
(`startInteraction` / `stopInteraction`), and the outcome. -/
structure GameState where
  tiles : List Tile
  keyLog : List (Char × TState)
  active : Bool
  outcome : Outcome
deriving DecidableEq, Repr

/-- One player input event: a letter key, the delete key, or enter. -/
inductive GEvent where
  | press (c : Char)
  | del
  | submit
deriving DecidableEq, Repr

/-- The source's `submitGuess` followed by the flip callbacks and
`checkWinLose`, executed atomically (animation timing is presentation
only): reject an incomplete row, reject a word not in the dictionary,
otherwise evaluate the row, extend the keyboard log, and decide
win / loss / continue. -/
def submitGuessStep (dict : List (List Char)) (target : List Char)
    (s : GameState) : GameState × Option Emit :=
  if countActive s.tiles ≠ WORD_LENGTH then (s, some Emit.incompleteGuess)
  else if guessOf s.tiles ∈ dict then
    let tiles' := flipTiles target s.tiles 0
    let log' := s.keyLog ++ flipUpdates target s.tiles 0
    if guessOf s.tiles = target then
      ({ tiles := tiles', keyLog := log', active := false,
         outcome := Outcome.won }, some Emit.won)
    else if countEmpty tiles' = 0 then
      ({ tiles := tiles', keyLog := log', active := false,
         outcome := Outcome.lost }, some Emit.lost)
    else
      ({ tiles := tiles', keyLog := log', active := true,
         outcome := s.outcome }, some Emit.rowEvaluated)
  else (s, some Emit.invalidWord)

/-- One step of the event loop: while the listeners are detached the
event is not handled at all; otherwise dispatch to the handler. -/
def step (dict : List (List Char)) (target : List Char)
    (s : GameState) : GEvent → GameState × Option Emit
  | GEvent.press c =>
    if s.active then ({ s with tiles := pressKey c s.tiles }, none) else (s, none)
  | GEvent.del =>
    if s.active then ({ s with tiles := deleteTiles s.tiles }, none) else (s, none)
  | GEvent.submit =>
    if s.active then submitGuessStep dict target s else (s, none)

/-- State part of `step`. -/
def stepS (dict : List (List Char)) (target : List Char)
    (s : GameState) (e : GEvent) : GameState :=
  (step dict target s e).1

/-- Run a list of events in order. -/
def runEvents (dict : List (List Char)) (target : List Char) :
    GameState → List GEvent → GameState
  | s, [] => s
  | s, e :: es => runEvents dict target (stepS dict target s e) es

/-- Modelled from the spec: the guess grid markup with `M = 6` rows of
`L = 5` tiles lives in the HTML page, not in `src/`; the spec fixes the
board as up to `M` rows of `L` cells (`M = max attempts, e.g. 6`). -/
def initState : GameState :=
  { tiles := List.replicate 30 emptyTile, keyLog := [], active := true,
    outcome := Outcome.inProgress }

/-- States reachable from the fresh session by some event sequence. -/
def Reachable (dict : List (List Char)) (target : List Char)
    (s : GameState) : Prop :=
  ∃ evs, runEvents dict target initState evs = s

/-- Modelled from the spec: the best-known keyboard status of a letter
with precedence `correct > wrong-location > wrong > unknown`.  The
source only accumulates CSS classes on each key; which class a key
displays is decided by the stylesheet, which is not in `src/`. -/
def bestKnown (log : List (Char × TState)) (c : Char) : Option TState :=
  if (c, TState.correct) ∈ log then some TState.correct
  else if (c, TState.wrongLocation) ∈ log then some TState.wrongLocation
  else if (c, TState.wrong) ∈ log then some TState.wrong
  else none

/-- Rank of a best-known status under the spec precedence
`correct > wrong-location > wrong > unknown`. -/
def statusRank : Option TState → Nat
  | none => 0
  | some TState.active => 0
  | some TState.wrong => 1
  | some TState.wrongLocation => 2
  | some TState.correct => 3

/-- The word `crane` as a letter list. -/
def craneW : List Char := ['c', 'r', 'a', 'n', 'e']

/-- The word `trace` as a letter list. -/
def traceW : List Char := ['t', 'r', 'a', 'c', 'e']

/-- The word `eerie` as a letter list. -/
def eerieW : List Char := ['e', 'e', 'r', 'i', 'e']

/-- Two-word dictionary used by the concrete scenarios. -/
def scenarioDict : List (List Char) := [traceW, craneW]

/-- Key presses spelling a word. -/
def pressesOf (w : List Char) : List GEvent := w.map GEvent.press

/-- Event sequence of the win scenario: type and submit `trace`, then
type and submit `crane`. -/
def winEvents : List GEvent :=
  pressesOf traceW ++ [GEvent.submit] ++ pressesOf craneW ++ [GEvent.submit]

/-- Final state of the win scenario against secret `crane`. -/
def winRun : GameState := runEvents scenarioDict craneW initState winEvents

/-- Structural invariant of reachable game states. -/
structure Inv (s : GameState) : Prop where
  len : s.tiles.length = 30
  letterState : ∀ t ∈ s.tiles, t.letter.isSome ↔ t.state.isSome
  activeLe : countActive s.tiles ≤ WORD_LENGTH
  evalDvd : 5 ∣ countEval s.tiles
  activeImp : s.active = true → s.outcome = Outcome.inProgress
  progLe : s.outcome = Outcome.inProgress → countEval s.tiles ≤ 25

theorem isEvalB_of_active {t : Tile} (h : isActiveB t = true) : isEvalB t = false := by
  simp only [isActiveB, decide_eq_true_eq] at h
  simp [isEvalB, h]

theorem isActiveB_emptyTile : isActiveB emptyTile = false := rfl

theorem isEvalB_emptyTile : isEvalB emptyTile = false := rfl

theorem tileStatus_ne_active (target : List Char) (i : Nat) (c : Char) :
    tileStatus target i c ≠ TState.active := by
  unfold tileStatus
  split
  · simp
  · split <;> simp

theorem pressTiles_length (c : Char) (b : List Tile) :
    (pressTiles c b).length = b.length := by
  induction b with
  | nil => rfl
  | cons t ts ih =>
    simp only [pressTiles]
    split
    · simp
    · simpa using ih

theorem countActive_pressTiles_le (c : Char) (b : List Tile) :
    countActive (pressTiles c b) ≤ countActive b + 1 := by
  induction b with
  | nil => simp [pressTiles, countActive]
  | cons t ts ih =>
    simp only [pressTiles]
    split
    · simp only [countActive, List.countP_cons] at *
      by_cases h : isActiveB t <;> simp [h, isActiveB]
    · simp only [countActive, List.countP_cons] at *
      omega

theorem countEval_pressTiles (c : Char) (b : List Tile)
    (H : ∀ t ∈ b, t.letter.isSome ↔ t.state.isSome) :
    countEval (pressTiles c b) = countEval b := by
  induction b with
  | nil => rfl
  | cons t ts ih =>
    simp only [pressTiles]
    split
    · rename_i hnone
      have hs : t.state = none := by
        have := (H t (by simp)).2
        cases hst : t.state with
        | none => rfl
        | some st => simp [hst, hnone] at this
      simp [countEval, List.countP_cons, isEvalB, hs]
    · have ih' := ih fun u hu => H u (by simp [hu])
      simp only [countEval, List.countP_cons] at *
      omega

theorem letterState_pressTiles (c : Char) (b : List Tile)
    (H : ∀ t ∈ b, t.letter.isSome ↔ t.state.isSome) :
    ∀ t ∈ pressTiles c b, t.letter.isSome ↔ t.state.isSome := by
  induction b with
  | nil => simp [pressTiles]
  | cons t ts ih =>
    simp only [pressTiles]
    split
    · intro u hu
      rcases List.mem_cons.1 hu with h | h
      · subst h; simp
      · exact H u (by simp [h])
    · intro u hu
      rcases List.mem_cons.1 hu with h | h
      · subst h; exact H u (by simp)
      · exact ih (fun v hv => H v (by simp [hv])) u h

theorem deleteTiles_length (b : List Tile) :
    (deleteTiles b).length = b.length := by
  induction b with
  | nil => rfl
  | cons t ts ih =>
    simp only [deleteTiles]
    split
    · simpa using ih
    · split <;> simp

theorem countActive_deleteTiles_le (b : List Tile) :
    countActive (deleteTiles b) ≤ countActive b := by
  induction b with
  | nil => simp [deleteTiles]
  | cons t ts ih =>
    simp only [deleteTiles]
    split
    · simp only [countActive, List.countP_cons] at *
      omega
    · split
      · rename_i hact
        simp only [countActive, List.countP_cons, isActiveB_emptyTile, hact]
        simp
      · exact Nat.le_refl _

theorem countEval_deleteTiles (b : List Tile) :
    countEval (deleteTiles b) = countEval b := by
  induction b with
  | nil => rfl
  | cons t ts ih =>
    simp only [deleteTiles]
    split
    · simp only [countEval, List.countP_cons] at *
      omega
    · split
      · rename_i hact
        simp [countEval, List.countP_cons, isEvalB_emptyTile, isEvalB_of_active hact]
      · rfl

theorem letterState_deleteTiles (b : List Tile)
    (H : ∀ t ∈ b, t.letter.isSome ↔ t.state.isSome) :
    ∀ t ∈ deleteTiles b, t.letter.isSome ↔ t.state.isSome := by
  induction b with
  | nil => simp [deleteTiles]
  | cons t ts ih =>
    simp only [deleteTiles]
    split
    · intro u hu
      rcases List.mem_cons.1 hu with h | h
      · subst h; exact H u (by simp)
      · exact ih (fun v hv => H v (by simp [hv])) u h
    · split
      · intro u hu
        rcases List.mem_cons.1 hu with h | h
        · subst h; simp [emptyTile]
        · exact H u (by simp [h])
      · exact H

theorem deleteTiles_of_no_active (b : List Tile) (h : countActive b = 0) :
    deleteTiles b = b := by
  cases b with
  | nil => rfl
  | cons t ts =>
    have hall : ∀ u ∈ t :: ts, ¬(isActiveB u = true) :=
      List.countP_eq_zero.1 h
    have ht : isActiveB t = false := by
      simpa using hall t (by simp)
    have hts : ts.any isActiveB = false := by
      rw [List.any_eq_false]
      intro u hu
      simpa using hall u (by simp [hu])
    simp [deleteTiles, hts, ht]

theorem flipTiles_length (target : List Char) (b : List Tile) (n : Nat) :
    (flipTiles target b n).length = b.length := by
  induction b generalizing n with
  | nil => rfl
  | cons t ts ih =>
    simp only [flipTiles]
    split <;> simp [ih]

theorem countActive_flipTiles (target : List Char) (b : List Tile) (n : Nat) :
    countActive (flipTiles target b n) = 0 := by
  induction b generalizing n with
  | nil => rfl
  | cons t ts ih =>
    simp only [flipTiles]
    split
    · rename_i hact
      have h1 : isActiveB ⟨t.letter, some (tileStatus target n (t.letter.getD ' '))⟩ = false := by
        simp [isActiveB, tileStatus_ne_active]
      simp only [countActive, List.countP_cons, h1, cond_false] at *
      simpa using ih (n + 1)
    · rename_i hact
      have h1 : isActiveB t = false := by simpa using hact
      simp only [countActive, List.countP_cons, h1, cond_false] at *
      simpa using ih n

theorem countEval_flipTiles (target : List Char) (b : List Tile) (n : Nat) :
    countEval (flipTiles target b n) = countEval b + countActive b := by
  induction b generalizing n with
  | nil => rfl
  | cons t ts ih =>
    simp only [flipTiles]
    split
    · rename_i hact
      have hne := isEvalB_of_active hact
      have hstat : isEvalB ⟨t.letter, some (tileStatus target n (t.letter.getD ' '))⟩ = true := by
        simp only [isEvalB, decide_eq_true_eq]
        rcases h : tileStatus target n (t.letter.getD ' ') with _ | _ | _ | _
        · exact absurd h (tileStatus_ne_active target n _)
        · simp
        · simp
        · simp
      simp only [countEval, countActive, List.countP_cons, hstat, hact, hne] at *
      simp [ih]
      omega
    · rename_i hact
      simp only [countEval, countActive, List.countP_cons,
        Bool.not_eq_true] at *
      simp [ih, hact]
      omega

theorem countEmpty_flipTiles (target : List Char) (b : List Tile) (n : Nat) :
    countEmpty (flipTiles target b n) = countEmpty b := by
  induction b generalizing n with
  | nil => rfl
  | cons t ts ih =>
    simp only [flipTiles]
    split
    · simp only [countEmpty, List.countP_cons, isEmptyB] at *
      simp [ih]
    · simp only [countEmpty, List.countP_cons] at *
      simp [ih]

theorem letterState_flipTiles (target : List Char) (b : List Tile) (n : Nat)
    (H : ∀ t ∈ b, t.letter.isSome ↔ t.state.isSome) :
    ∀ t ∈ flipTiles target b n, t.letter.isSome ↔ t.state.isSome := by
  induction b generalizing n with
  | nil => simp [flipTiles]
  | cons t ts ih =>
    simp only [flipTiles]
    split
    · rename_i hact
      intro u hu
      rcases List.mem_cons.1 hu with h | h
      · subst h
        have : t.state.isSome := by
          simp only [isActiveB, decide_eq_true_eq] at hact
          simp [hact]
        have hl : t.letter.isSome := (H t (by simp)).2 this
        simpa using hl
      · exact ih (n + 1) (fun v hv => H v (by simp [hv])) u h
    · intro u hu
      rcases List.mem_cons.1 hu with h | h
      · subst h; exact H u (by simp)
      · exact ih n (fun v hv => H v (by simp [hv])) u h

theorem countSplit (b : List Tile)
    (H : ∀ t ∈ b, t.letter.isSome ↔ t.state.isSome) :
    countEmpty b + countActive b + countEval b = b.length := by
  induction b with
  | nil => rfl
  | cons t ts ih =>
    have ih' := ih fun u hu => H u (by simp [hu])
    have ht := H t (by simp)
    simp only [countEmpty, countActive, countEval, List.countP_cons,
      List.length_cons] at *
    cases hl : t.letter with
    | none =>
      have hs : t.state = none := by
        cases hst : t.state with
        | none => rfl
        | some st => simp [hl, hst] at ht
      simp [isEmptyB, isActiveB, isEvalB, hl, hs]
      omega
    | some l =>
      have hs : t.state.isSome := ht.1 (by simp [hl])
      rcases Option.isSome_iff_exists.1 hs with ⟨st, hst⟩
      cases st with
      | active =>
        simp [isEmptyB, isActiveB, isEvalB, hl, hst]
        omega
      | correct =>
        simp [isEmptyB, isActiveB, isEvalB, hl, hst]
        omega
      | wrongLocation =>
        simp [isEmptyB, isActiveB, isEvalB, hl, hst]
        omega
      | wrong =>
        simp [isEmptyB, isActiveB, isEvalB, hl, hst]
        omega

theorem inv_pressKey (c : Char) (s : GameState) (h : Inv s) :
    Inv { s with tiles := pressKey c s.tiles } := by
  unfold pressKey
  split
  · exact h
  · rename_i hlt
    have hle : countActive s.tiles ≤ 4 := by
      simp only [WORD_LENGTH] at hlt
      omega
    refine ⟨?_, ?_, ?_, ?_, ?_, ?_⟩
    · simpa [pressTiles_length] using h.len
    · exact letterState_pressTiles c s.tiles h.letterState
    · have h1 := countActive_pressTiles_le c s.tiles
      simp only [WORD_LENGTH]
      omega
    · simpa [countEval_pressTiles c s.tiles h.letterState] using h.evalDvd
    · exact h.activeImp
    · intro hp
      simpa [countEval_pressTiles c s.tiles h.letterState] using h.progLe hp

theorem inv_deleteKey (s : GameState) (h : Inv s) :
    Inv { s with tiles := deleteTiles s.tiles } := by
  refine ⟨?_, ?_, ?_, ?_, ?_, ?_⟩
  · simpa [deleteTiles_length] using h.len
  · exact letterState_deleteTiles s.tiles h.letterState
  · have h1 := countActive_deleteTiles_le s.tiles
    have h2 := h.activeLe
    simp only [WORD_LENGTH] at *
    omega
  · simpa [countEval_deleteTiles] using h.evalDvd
  · exact h.activeImp
  · intro hp
    simpa [countEval_deleteTiles] using h.progLe hp

theorem inv_submitGuessStep (dict : List (List Char)) (target : List Char)
    (s : GameState) (h : Inv s) (hact : s.active = true) :
    Inv (submitGuessStep dict target s).1 := by
  unfold submitGuessStep
  split
  · exact h
  · rename_i hfull
    have hcnt : countActive s.tiles = 5 := by
      simp only [WORD_LENGTH, ne_eq, not_not] at hfull
      exact hfull
    split
    · rename_i hdict
      have hlen : (flipTiles target s.tiles 0).length = 30 := by
        simpa [flipTiles_length] using h.len
      have hls := letterState_flipTiles target s.tiles 0 h.letterState
      have hca := countActive_flipTiles target s.tiles 0
      have hce : countEval (flipTiles target s.tiles 0) = countEval s.tiles + 5 := by
        simp [countEval_flipTiles, hcnt]
      have hdvd : 5 ∣ countEval (flipTiles target s.tiles 0) := by
        rcases h.evalDvd with ⟨k, hk⟩
        exact ⟨k + 1, by omega⟩
      split
      · exact ⟨hlen, hls, by simp [hca, WORD_LENGTH], hdvd, by simp, by simp⟩
      · dsimp only
        split
        · exact ⟨hlen, hls, by simp [hca, WORD_LENGTH], hdvd, by simp, by simp⟩
        · rename_i hne
          have hsplit := countSplit (flipTiles target s.tiles 0) hls
          refine ⟨hlen, hls, by simp [hca, WORD_LENGTH], hdvd, ?_, ?_⟩
          · intro _
            exact h.activeImp hact
          · intro _
            show countEval (flipTiles target s.tiles 0) ≤ 25
            rcases hdvd with ⟨k, hk⟩
            simp only [hca, hlen] at hsplit
            omega
    · exact h

theorem inv_stepS (dict : List (List Char)) (target : List Char)
    (s : GameState) (e : GEvent) (h : Inv s) :
    Inv (stepS dict target s e) := by
  cases e with
  | press c =>
    simp only [stepS, step]
    split
    · exact inv_pressKey c s h
    · exact h
  | del =>
    simp only [stepS, step]
    split
    · exact inv_deleteKey s h
    · exact h
  | submit =>
    simp only [stepS, step]
    split
    · rename_i hact
      exact inv_submitGuessStep dict target s h hact
    · exact h

theorem inv_runEvents (dict : List (List Char)) (target : List Char)
    (evs : List GEvent) :
    ∀ s : GameState, Inv s → Inv (runEvents dict target s evs) := by
  induction evs with
  | nil => exact fun s h => h
  | cons e es ih =>
    intro s h
    exact ih _ (inv_stepS dict target s e h)

theorem inv_initState : Inv initState := by
  refine ⟨by decide, by decide, by decide, ⟨0, rfl⟩, by decide, ?_⟩
  intro _
  decide

theorem inv_reachable (dict : List (List Char)) (target : List Char)
    (s : GameState) (h : Reachable dict target s) : Inv s := by
  rcases h with ⟨evs, rfl⟩
  exact inv_runEvents dict target evs initState inv_initState

theorem keyLog_stepS (dict : List (List Char)) (target : List Char)
    (s : GameState) (e : GEvent) :
    ∃ ext, (stepS dict target s e).keyLog = s.keyLog ++ ext := by
  cases e with
  | press c =>
    simp only [stepS, step]
    split
    · exact ⟨[], by simp⟩
    · exact ⟨[], by simp⟩
  | del =>
    simp only [stepS, step]
    split
    · exact ⟨[], by simp⟩
    · exact ⟨[], by simp⟩
  | submit =>
    simp only [stepS, step]
    split
    · unfold submitGuessStep
      split
      · exact ⟨[], by simp⟩
      · split
        · dsimp only
          split
          · exact ⟨flipUpdates target s.tiles 0, rfl⟩
          · split
            · exact ⟨flipUpdates target s.tiles 0, rfl⟩
            · exact ⟨flipUpdates target s.tiles 0, rfl⟩
        · exact ⟨[], by simp⟩
    · exact ⟨[], by simp⟩

theorem keyLog_runEvents (dict : List (List Char)) (target : List Char)
    (evs : List GEvent) :
    ∀ s : GameState, ∃ ext, (runEvents dict target s evs).keyLog = s.keyLog ++ ext := by
  induction evs with
  | nil => exact fun s => ⟨[], by simp [runEvents]⟩
  | cons e es ih =>
    intro s
    rcases keyLog_stepS dict target s e with ⟨ext1, h1⟩
    rcases ih (stepS dict target s e) with ⟨ext2, h2⟩
    exact ⟨ext1 ++ ext2, by simp [runEvents, h2, h1]⟩

theorem bestKnown_correct_iff (log : List (Char × TState)) (c : Char) :
    bestKnown log c = some TState.correct ↔ (c, TState.correct) ∈ log := by
  unfold bestKnown
  by_cases h1 : (c, TState.correct) ∈ log
  · simp [h1]
  · simp only [h1, if_false]
    split
    · simp [h1]
    · split
      · simp [h1]
      · simp [h1]

theorem statusRank_bestKnown_append (log ext : List (Char × TState)) (c : Char) :
    statusRank (bestKnown log c) ≤ statusRank (bestKnown (log ++ ext) c) := by
  by_cases h1 : (c, TState.correct) ∈ log
  · have h1' : (c, TState.correct) ∈ log ++ ext := List.mem_append_left _ h1
    simp [bestKnown, h1, h1']
  · by_cases h2 : (c, TState.wrongLocation) ∈ log
    · have h2' : (c, TState.wrongLocation) ∈ log ++ ext := List.mem_append_left _ h2
      by_cases h1' : (c, TState.correct) ∈ log ++ ext
      · simp [bestKnown, h1, h2, h1', statusRank]
      · simp [bestKnown, h1, h2, h1', h2', statusRank]
    · by_cases h3 : (c, TState.wrong) ∈ log
      · have h3' : (c, TState.wrong) ∈ log ++ ext := List.mem_append_left _ h3
        by_cases h1' : (c, TState.correct) ∈ log ++ ext
        · simp [bestKnown, h1, h2, h3, h1', statusRank]
        · by_cases h2' : (c, TState.wrongLocation) ∈ log ++ ext
          · simp [bestKnown, h1, h2, h3, h1', h2', statusRank]
          · simp [bestKnown, h1, h2, h3, h1', h2', h3', statusRank]
      · have hnone : bestKnown log c = none := by
          simp [bestKnown, h1, h2, h3]
        simp [hnone, statusRank]

theorem evaluateFrom_get? (target : List Char) (g : List Char) (n i : Nat) :
    (evaluateFrom target g n).get? i =
      (g.get? i).map fun c => tileStatus target (n + i) c := by
  induction g generalizing n i with
  | nil => simp [evaluateFrom]
  | cons c cs ih =>
    cases i with
    | zero => simp [evaluateFrom]
    | succ j =>
      simp only [evaluateFrom, List.get?_cons_succ]
      rw [ih (n + 1) j]
      have harith : n + 1 + j = n + (j + 1) := by omega
      rw [harith]

theorem tileStatus_correct_iff (target : List Char) (i : Nat) (c : Char) :
    tileStatus target i c = TState.correct ↔ target.get? i = some c := by
  unfold tileStatus
  split
  · rename_i h
    rw [List.get?_eq_getElem?] at h
    simp [h]
  · rename_i h
    rw [List.get?_eq_getElem?] at h
    split <;> simp [h]

theorem countEmpty_flipped_dvd (target : List Char) (s : GameState)
    (hinv : Inv s) (hfull : countActive s.tiles = WORD_LENGTH) :
    5 ∣ countEmpty (flipTiles target s.tiles 0) := by
  have hsplit := countSplit (flipTiles target s.tiles 0)
    (letterState_flipTiles target s.tiles 0 hinv.letterState)
  have hca := countActive_flipTiles target s.tiles 0
  have hce := countEval_flipTiles target s.tiles 0
  have hlen : (flipTiles target s.tiles 0).length = 30 := by
    simpa [flipTiles_length] using hinv.len
  rcases hinv.evalDvd with ⟨k, hk⟩
  simp only [WORD_LENGTH] at hfull
  omega

/-- C1: the claimed property is the pool-consumption letter budget: the
number of `correct` plus `wrong-location` marks for a letter never
exceeds its occurrence count in the secret word.  The code violates it:
its containment pass tests whole-word membership
(`targetWord.includes(letter)`) instead of consuming a pool, so against
secret `crane` the guess `eerie` collects three `correct`-or-
`wrong-location` marks for the letter `e` although `crane` contains `e`
exactly once. -/
theorem c1_letter_budget_violated :
    scoredCount eerieW craneW 'e' = 3 ∧ craneW.count 'e' = 1 ∧
      ¬ scoredCount eerieW craneW 'e' ≤ craneW.count 'e' := by
  refine ⟨by decide, by decide, by decide⟩

/-- C2 counterexample: evaluating `trace` against secret `crane` does
not yield the claimed sequence `[wrong-location, wrong, wrong-location,
correct, wrong-location]`. -/
theorem c2_claimed_sequence_false :
    ¬ evaluate traceW craneW =
      [TState.wrongLocation, TState.wrong, TState.wrongLocation,
        TState.correct, TState.wrongLocation] := by
  decide

/-- C2 (amended): evaluating `trace` against secret `crane` yields
`[wrong, correct, correct, wrong-location, correct]`, the first row of
the board carries exactly these statuses after the first submission, and
the subsequent submission of `crane` yields outcome `Won`. -/
theorem c2_win_scenario :
    evaluate traceW craneW =
      [TState.wrong, TState.correct, TState.correct, TState.wrongLocation,
        TState.correct] ∧
    (winRun.tiles.take 5).map Tile.state =
      [some TState.wrong, some TState.correct, some TState.correct,
        some TState.wrongLocation, some TState.correct] ∧
    winRun.outcome = Outcome.won := by
  refine ⟨by decide, by decide, by decide⟩

/-- C3: for guesses and secrets of equal length, the evaluation marks
position `i` as `correct` exactly when the guessed letter equals the
secret letter at that position. -/
theorem c3_correct_iff_match (guess target : List Char)
    (hlen : guess.length = target.length) (i : Nat) (hi : i < guess.length) :
    ((evaluate guess target).get? i = some TState.correct ↔
      guess.get? i = target.get? i) := by
  have hi' : i < target.length := hlen ▸ hi
  have hg := List.get?_eq_get hi
  have ht := List.get?_eq_get hi'
  rw [evaluate, evaluateFrom_get?, hg, ht]
  simp only [Option.map_some', Nat.zero_add, Option.some.injEq]
  rw [tileStatus_correct_iff, ht]
  simp [eq_comm]

/-- Witness for C3 at guess `trace`, secret `crane`, position 1. -/
theorem c3_correct_iff_match_witness :
    ((evaluate traceW craneW).get? 1 = some TState.correct ↔
      traceW.get? 1 = craneW.get? 1) :=
  c3_correct_iff_match traceW craneW (by decide) 1 (by decide)

/-- C4: the best-known keyboard status of a letter is monotone under
the precedence `correct > wrong-location > wrong > unknown` across any
sequence of events, and once it is `correct` it never changes: the
keyboard log only accumulates `classList.add` entries. -/
theorem c4_keyboard_monotone (dict : List (List Char)) (target : List Char)
    (s : GameState) (evs : List GEvent) (c : Char) :
    statusRank (bestKnown s.keyLog c) ≤
      statusRank (bestKnown (runEvents dict target s evs).keyLog c) ∧
    (bestKnown s.keyLog c = some TState.correct →
      bestKnown (runEvents dict target s evs).keyLog c = some TState.correct) := by
  rcases keyLog_runEvents dict target evs s with ⟨ext, hext⟩
  constructor
  · rw [hext]
    exact statusRank_bestKnown_append s.keyLog ext c
  · intro h
    rw [hext]
    rw [bestKnown_correct_iff] at h ⊢
    exact List.mem_append_left _ h

/-- Witness for C4: a letter already known `correct` stays `correct`
after a further event. -/
theorem c4_keyboard_monotone_witness :
    bestKnown (runEvents scenarioDict craneW
      { initState with keyLog := [('r', TState.correct)] }
      [GEvent.submit]).keyLog 'r' = some TState.correct :=
  (c4_keyboard_monotone scenarioDict craneW
    { initState with keyLog := [('r', TState.correct)] }
    [GEvent.submit] 'r').2 (by decide)

/-- C5: submitting while the current row has fewer than `WORD_LENGTH`
filled cells emits `IncompleteGuess` and leaves the whole game state
(board letters, statuses and keyboard log) unchanged. -/
theorem c5_incomplete_guess (dict : List (List Char)) (target : List Char)
    (s : GameState) (hact : s.active = true)
    (hlt : countActive s.tiles < WORD_LENGTH) :
    step dict target s GEvent.submit = (s, some Emit.incompleteGuess) := by
  have hne : countActive s.tiles ≠ WORD_LENGTH := by omega
  simp [step, hact, submitGuessStep, hne]

/-- Witness for C5: submitting after typing only `c`, `r`, `a`. -/
theorem c5_incomplete_guess_witness :
    step scenarioDict craneW
      (runEvents scenarioDict craneW initState (pressesOf ['c', 'r', 'a']))
      GEvent.submit =
    (runEvents scenarioDict craneW initState (pressesOf ['c', 'r', 'a']),
      some Emit.incompleteGuess) :=
  c5_incomplete_guess scenarioDict craneW
    (runEvents scenarioDict craneW initState (pressesOf ['c', 'r', 'a']))
    (by decide) (by decide)

/-- C6: after submitting a full-length dictionary guess from a reachable
state, the outcome is `Won` exactly when the guess equals the secret,
`Lost` exactly when it does not match and no empty cell remains (the
count of empty cells stays a multiple of five, so no empty cell is the
same as no empty row), and otherwise the game stays in progress and
keeps accepting input. -/
theorem c6_outcome_after_submit (dict : List (List Char)) (target : List Char)
    (s : GameState) (hreach : Reachable dict target s) (hact : s.active = true)
    (hfull : countActive s.tiles = WORD_LENGTH)
    (hdict : guessOf s.tiles ∈ dict) :
    ((stepS dict target s GEvent.submit).outcome = Outcome.won ↔
      guessOf s.tiles = target) ∧
    ((stepS dict target s GEvent.submit).outcome = Outcome.lost ↔
      (¬ guessOf s.tiles = target ∧
        countEmpty (stepS dict target s GEvent.submit).tiles = 0)) ∧
    (¬ guessOf s.tiles = target →
      ¬ countEmpty (stepS dict target s GEvent.submit).tiles = 0 →
      (stepS dict target s GEvent.submit).outcome = Outcome.inProgress ∧
        (stepS dict target s GEvent.submit).active = true) ∧
    5 ∣ countEmpty (stepS dict target s GEvent.submit).tiles := by
  have hinv := inv_reachable dict target s hreach
  have hprog : s.outcome = Outcome.inProgress := hinv.activeImp hact
  have hne : ¬ countActive s.tiles ≠ WORD_LENGTH := by simp [hfull]
  have hdvd := countEmpty_flipped_dvd target s hinv hfull
  by_cases hg : guessOf s.tiles = target
  · have hdictT : target ∈ dict := hg ▸ hdict
    have hstep : stepS dict target s GEvent.submit =
        { tiles := flipTiles target s.tiles 0,
          keyLog := s.keyLog ++ flipUpdates target s.tiles 0,
          active := false, outcome := Outcome.won } := by
      simp [stepS, step, hact, submitGuessStep, hne, hdict, hdictT, hg]
    rw [hstep]
    exact ⟨by simp [hg], by simp [hg], by simp [hg], hdvd⟩
  · by_cases hempty : countEmpty (flipTiles target s.tiles 0) = 0
    · have hstep : stepS dict target s GEvent.submit =
          { tiles := flipTiles target s.tiles 0,
            keyLog := s.keyLog ++ flipUpdates target s.tiles 0,
            active := false, outcome := Outcome.lost } := by
        simp [stepS, step, hact, submitGuessStep, hne, hdict, hg, hempty]
      rw [hstep]
      exact ⟨by simp [hg], by simp [hg, hempty], by simp [hempty], hdvd⟩
    · have hstep : stepS dict target s GEvent.submit =
          { tiles := flipTiles target s.tiles 0,
            keyLog := s.keyLog ++ flipUpdates target s.tiles 0,
            active := true, outcome := s.outcome } := by
        simp [stepS, step, hact, submitGuessStep, hne, hdict, hg, hempty]
      rw [hstep]
      exact ⟨by simp [hg, hprog], by simp [hg, hprog, hempty],
        by simp [hprog], hdvd⟩

/-- Witness for C6: submitting `crane` against secret `crane` wins. -/
theorem c6_outcome_after_submit_witness :
    (stepS scenarioDict craneW
      (runEvents scenarioDict craneW initState (pressesOf craneW))
      GEvent.submit).outcome = Outcome.won :=
  ((c6_outcome_after_submit scenarioDict craneW
    (runEvents scenarioDict craneW initState (pressesOf craneW))
    ⟨pressesOf craneW, rfl⟩ (by decide) (by decide) (by decide)).1).mpr
    (by decide)

/-- C7: a terminal outcome is forever: from a reachable state whose
outcome is `Won` or `Lost` the interaction listeners are detached, so
every further event sequence leaves the entire state (board, keyboard
log, outcome) unchanged. -/
theorem c7_terminal_frozen (dict : List (List Char)) (target : List Char)
    (s : GameState) (hreach : Reachable dict target s)
    (hterm : ¬ s.outcome = Outcome.inProgress) :
    ∀ evs : List GEvent, runEvents dict target s evs = s := by
  have hinv := inv_reachable dict target s hreach
  have hact : s.active = false := by
    cases hA : s.active
    · rfl
    · exact absurd (hinv.activeImp hA) hterm
  intro evs
  induction evs with
  | nil => rfl
  | cons e es ih =>
    have hstep : stepS dict target s e = s := by
      cases e <;> simp [stepS, step, hact]
    rw [runEvents, hstep]
    exact ih

/-- Witness for C7: the won end state of the `crane` scenario absorbs
further presses, deletes and submits. -/
theorem c7_terminal_frozen_witness :
    runEvents scenarioDict craneW winRun
      [GEvent.press 'a', GEvent.del, GEvent.submit] = winRun :=
  c7_terminal_frozen scenarioDict craneW winRun ⟨winEvents, rfl⟩ (by decide)
    [GEvent.press 'a', GEvent.del, GEvent.submit]

/-- C8: from any reachable state, a key press never brings the number of
filled cells of the current row above `WORD_LENGTH`; pressing with a
full row is a complete no-op, and deleting with an empty row is a
complete no-op. -/
theorem c8_accumulator_bounds (dict : List (List Char)) (target : List Char)
    (s : GameState) (c : Char) (hreach : Reachable dict target s) :
    countActive (stepS dict target s (GEvent.press c)).tiles ≤ WORD_LENGTH ∧
    (countActive s.tiles = WORD_LENGTH →
      step dict target s (GEvent.press c) = (s, none)) ∧
    (countActive s.tiles = 0 → step dict target s GEvent.del = (s, none)) := by
  have hinv := inv_reachable dict target s hreach
  refine ⟨(inv_stepS dict target s (GEvent.press c) hinv).activeLe, ?_, ?_⟩
  · intro hfull
    cases hA : s.active
    · simp [step, hA]
    · have hpk : pressKey c s.tiles = s.tiles := by
        simp [pressKey, hfull]
      simp only [step]
      rw [if_pos hA, hpk]
  · intro hzero
    cases hA : s.active
    · simp [step, hA]
    · simp only [step]
      rw [if_pos hA, deleteTiles_of_no_active s.tiles hzero]

/-- Witness for C8 at the fresh session. -/
theorem c8_accumulator_bounds_witness :
    countActive (stepS scenarioDict craneW initState (GEvent.press 'a')).tiles ≤
        WORD_LENGTH ∧
    step scenarioDict craneW initState GEvent.del = (initState, none) :=
  ⟨(c8_accumulator_bounds scenarioDict craneW initState 'a' ⟨[], rfl⟩).1,
    (c8_accumulator_bounds scenarioDict craneW initState 'a' ⟨[], rfl⟩).2.2
      (by decide)⟩

/-- C9: evaluation only ever appends `classList.add` entries to the
keyboard log, no event removes one, and a single key can end up holding
several status classes at once: in the `trace` then `crane` scenario the
key `c` holds both `wrong-location` and `correct`. -/
theorem c9_key_classes_grow :
    (∀ (dict : List (List Char)) (target : List Char) (s : GameState)
      (e : GEvent), ∃ ext, (stepS dict target s e).keyLog = s.keyLog ++ ext) ∧
    ('c', TState.wrongLocation) ∈ winRun.keyLog ∧
    ('c', TState.correct) ∈ winRun.keyLog := by
  exact ⟨keyLog_stepS, by decide, by decide⟩

/-- C10: in any reachable non-terminal state whose current row has fewer
than `WORD_LENGTH` filled cells, the grid still contains a tile without
a letter, so the unguarded `querySelector(":not([data-letter])")` lookup
of `pressKey` succeeds and its null dereference cannot happen. -/
theorem c10_next_empty_exists (dict : List (List Char)) (target : List Char)
    (s : GameState) (hreach : Reachable dict target s)
    (hprog : s.outcome = Outcome.inProgress)
    (hlt : countActive s.tiles < WORD_LENGTH) :
    (nextEmptyTile s.tiles).isSome := by
  have hinv := inv_reachable dict target s hreach
  have hsplit := countSplit s.tiles hinv.letterState
  have hle := hinv.progLe hprog
  have hlen := hinv.len
  have hpos : 0 < countEmpty s.tiles := by
    simp only [WORD_LENGTH] at hlt
    omega
  rcases List.countP_pos_iff.1 hpos with ⟨t, ht, hp⟩
  exact List.find?_isSome.mpr ⟨t, ht, hp⟩

/-- Witness for C10 at the fresh session. -/
theorem c10_next_empty_exists_witness :
    (nextEmptyTile initState.tiles).isSome :=
  c10_next_empty_exists scenarioDict craneW initState ⟨[], rfl⟩ rfl (by decide)
